import Mathlib

/-!
Verification of the attribute bitset of `src/style/attributes.rs`:
the type `Attributes`, a `u32` bitset over text-styling capabilities,
together with its construction, mutation, query and set-algebra
operations.  The capability catalog (the `Attribute` enum with its
`bytes()` bitmasks and `iterator()` enumeration) is external to the
unit under study and is modelled from the spec: each capability carries
a `u32` bitmask, and the canonical enumeration is passed in as a list
where an operation needs it.
-/

/-- Modelled from the spec: a capability of the external capability
catalog (the `Attribute` enum, which is not part of the unit under
study).  The spec requires each capability to carry a bitmask fitting
the 32-bit word (`Attribute::bytes()` returns a `u32`); uniqueness and
the power-of-two shape of the bitmasks are catalog invariants, taken as
hypotheses by the claims that assume them. -/
structure Attribute where
  bytes : Nat
  bytes_lt : bytes < 2 ^ 32

theorem Attribute.ext_bytes : ∀ {a b : Attribute}, a.bytes = b.bytes → a = b
  | ⟨_, _⟩, ⟨_, _⟩, rfl => rfl

instance : DecidableEq Attribute := fun a b =>
  if h : a.bytes = b.bytes then .isTrue (Attribute.ext_bytes h)
  else .isFalse fun hh => h (congrArg Attribute.bytes hh)

/-- Bitwise complement on a 32-bit word: the Rust `!x` for `x : u32`. -/
def u32not (x : Nat) : Nat := x ^^^ (2 ^ 32 - 1)

theorem u32not_lt {x : Nat} (h : x < 2 ^ 32) : u32not x < 2 ^ 32 :=
  Nat.xor_lt_two_pow h (by norm_num)

/-- Rust: `pub struct Attributes(u32)` — "a bitset for all possible
attributes".  The field `bits` is the `u32` payload. -/
structure Attributes where
  bits : Nat
  bits_lt : bits < 2 ^ 32

theorem Attributes.ext_bits : ∀ {a b : Attributes}, a.bits = b.bits → a = b
  | ⟨_, _⟩, ⟨_, _⟩, rfl => rfl

instance : DecidableEq Attributes := fun a b =>
  if h : a.bits = b.bits then .isTrue (Attributes.ext_bits h)
  else .isFalse fun hh => h (congrArg Attributes.bits hh)

/-- Rust `Attributes::none`: returns the empty bitset (`Self(0)`). -/
def Attributes.none : Attributes := ⟨0, by norm_num⟩

/-- Rust `impl From of Attribute for Attributes`: `Self(attribute.bytes())`. -/
def Attributes.fromAttr (a : Attribute) : Attributes := ⟨a.bytes, a.bytes_lt⟩

/-- Rust `Attributes::with` (renamed: `with` is a Lean keyword):
`Self(self.0 | attribute.bytes())`. -/
def Attributes.withAttr (s : Attributes) (a : Attribute) : Attributes :=
  ⟨s.bits ||| a.bytes, Nat.or_lt_two_pow s.bits_lt a.bytes_lt⟩

/-- Rust `Attributes::without`: `Self(self.0 & !attribute.bytes())`. -/
def Attributes.without (s : Attributes) (a : Attribute) : Attributes :=
  ⟨s.bits &&& u32not a.bytes, Nat.and_lt_two_pow _ (u32not_lt a.bytes_lt)⟩

/-- Rust `Attributes::set` (`self.0 |= attribute.bytes()`); the `&mut self`
receiver is embedded as returning the updated value. -/
def Attributes.set (s : Attributes) (a : Attribute) : Attributes :=
  ⟨s.bits ||| a.bytes, Nat.or_lt_two_pow s.bits_lt a.bytes_lt⟩

/-- Rust `Attributes::unset` (`self.0 &= !attribute.bytes()`). -/
def Attributes.unset (s : Attributes) (a : Attribute) : Attributes :=
  ⟨s.bits &&& u32not a.bytes, Nat.and_lt_two_pow _ (u32not_lt a.bytes_lt)⟩

/-- Rust `Attributes::toggle` (`self.0 ^= attribute.bytes()`). -/
def Attributes.toggle (s : Attributes) (a : Attribute) : Attributes :=
  ⟨s.bits ^^^ a.bytes, Nat.xor_lt_two_pow s.bits_lt a.bytes_lt⟩

/-- Rust `Attributes::has`: `self.0 & attribute.bytes() != 0`. -/
def Attributes.has (s : Attributes) (a : Attribute) : Bool :=
  s.bits &&& a.bytes != 0

/-- Rust `Attributes::extend` (`self.0 |= attributes.0`). -/
def Attributes.extend (s : Attributes) (o : Attributes) : Attributes :=
  ⟨s.bits ||| o.bits, Nat.or_lt_two_pow s.bits_lt o.bits_lt⟩

/-- Rust `Attributes::is_empty`: `self.0 == 0`. -/
def Attributes.is_empty (s : Attributes) : Bool := s.bits == 0

/-- Rust `Attributes::intersects`: `(self.0 & other.0) != 0`. -/
def Attributes.intersects (s : Attributes) (o : Attributes) : Bool :=
  s.bits &&& o.bits != 0

/-- Rust `Attributes::contains`: `(self.0 & other.0) == other.0`. -/
def Attributes.contains (s : Attributes) (o : Attributes) : Bool :=
  s.bits &&& o.bits == o.bits

/-- Rust `Attributes::intersection`: `Self(self.0 & other.0)`. -/
def Attributes.intersection (s : Attributes) (o : Attributes) : Attributes :=
  ⟨s.bits &&& o.bits, Nat.and_lt_two_pow _ o.bits_lt⟩

/-- Rust `Attributes::union`: `Self(self.0 | other.0)`. -/
def Attributes.union (s : Attributes) (o : Attributes) : Attributes :=
  ⟨s.bits ||| o.bits, Nat.or_lt_two_pow s.bits_lt o.bits_lt⟩

/-- Rust `Attributes::difference`: `Self(self.0 & !other.0)`. -/
def Attributes.difference (s : Attributes) (o : Attributes) : Attributes :=
  ⟨s.bits &&& u32not o.bits, Nat.and_lt_two_pow _ (u32not_lt o.bits_lt)⟩

/-- Rust `Attributes::symmetric_difference`: `Self(self.0 ^ other.0)`. -/
def Attributes.symmetric_difference (s : Attributes) (o : Attributes) : Attributes :=
  ⟨s.bits ^^^ o.bits, Nat.xor_lt_two_pow s.bits_lt o.bits_lt⟩

/-- Rust `impl BitAnd for Attributes`: `Self(self.0 & rhs.0)`. -/
def Attributes.bitand (s : Attributes) (rhs : Attributes) : Attributes :=
  ⟨s.bits &&& rhs.bits, Nat.and_lt_two_pow _ rhs.bits_lt⟩

/-- Rust `impl BitAnd of Attribute for Attributes`: `Self(self.0 & rhs.bytes())`. -/
def Attributes.bitandAttr (s : Attributes) (rhs : Attribute) : Attributes :=
  ⟨s.bits &&& rhs.bytes, Nat.and_lt_two_pow _ rhs.bytes_lt⟩

/-- Rust `impl BitOr for Attributes`: `Self(self.0 | rhs.0)`. -/
def Attributes.bitor (s : Attributes) (rhs : Attributes) : Attributes :=
  ⟨s.bits ||| rhs.bits, Nat.or_lt_two_pow s.bits_lt rhs.bits_lt⟩

/-- Rust `impl BitOr of Attribute for Attributes`: `Self(self.0 | rhs.bytes())`. -/
def Attributes.bitorAttr (s : Attributes) (rhs : Attribute) : Attributes :=
  ⟨s.bits ||| rhs.bytes, Nat.or_lt_two_pow s.bits_lt rhs.bytes_lt⟩

/-- Rust `impl BitXor for Attributes`: `Self(self.0 ^ rhs.0)`. -/
def Attributes.bitxor (s : Attributes) (rhs : Attributes) : Attributes :=
  ⟨s.bits ^^^ rhs.bits, Nat.xor_lt_two_pow s.bits_lt rhs.bits_lt⟩

/-- Rust `impl BitXor of Attribute for Attributes`: `Self(self.0 ^ rhs.bytes())`. -/
def Attributes.bitxorAttr (s : Attributes) (rhs : Attribute) : Attributes :=
  ⟨s.bits ^^^ rhs.bytes, Nat.xor_lt_two_pow s.bits_lt rhs.bytes_lt⟩

/-- Rust `impl From of a slice of Attribute for Attributes`: starts from
the default (empty) set and calls `set` on each element in order. -/
def Attributes.fromSlice (arr : List Attribute) : Attributes :=
  arr.foldl (fun s a => s.set a) Attributes.none

/-- Rust `Attributes::iter`:
`Attribute::iterator().filter(|a| self.has(*a))`.  The catalog
enumeration `Attribute::iterator()` is external to the unit and is
modelled from the spec as the list `catalog` of all capabilities in
canonical order. -/
def Attributes.iter (catalog : List Attribute) (s : Attributes) : List Attribute :=
  catalog.filter fun a => s.has a

/-- The union of all catalog bitmasks, used to state the claim that the
set never holds a bit outside the catalog-defined positions. -/
def allMask (catalog : List Attribute) : Nat :=
  catalog.foldr (fun a m => a.bytes ||| m) 0

/-- All set bits of `s` lie at positions covered by some catalog
capability bitmask. -/
def withinCatalog (catalog : List Attribute) (s : Attributes) : Prop :=
  s.bits &&& allMask catalog = s.bits

instance (c : List Attribute) (s : Attributes) : Decidable (withinCatalog c s) :=
  Nat.decEq (s.bits &&& allMask c) s.bits

/-- Number of set bits of a 32-bit word (the claims' "number of set bits"). -/
def popCount32 (n : Nat) : Nat :=
  ((List.range 32).filter fun i => n.testBit i).length

/-! Shared bit-level helper lemmas. -/

theorem testBit_high {x : Nat} (hx : x < 2 ^ 32) {i : Nat} (hi : 32 ≤ i) :
    x.testBit i = false :=
  Nat.testBit_lt_two_pow (lt_of_lt_of_le hx (Nat.pow_le_pow_right (by norm_num) hi))

theorem u32not_testBit (x i : Nat) :
    (u32not x).testBit i = ((x.testBit i).xor (decide (i < 32))) := by
  unfold u32not
  rw [Nat.testBit_xor, Nat.testBit_two_pow_sub_one]

theorem land_ne_zero_iff {x y : Nat} :
    x &&& y ≠ 0 ↔ ∃ i, x.testBit i = true ∧ y.testBit i = true := by
  constructor
  · intro h
    obtain ⟨i, hi⟩ := Nat.ne_zero_implies_bit_true h
    rw [Nat.testBit_and] at hi
    exact ⟨i, Bool.and_eq_true_iff.mp hi⟩
  · rintro ⟨i, hx, hy⟩ h0
    have h := Nat.testBit_and x y i
    rw [h0, Nat.zero_testBit, hx, hy] at h
    simp at h

theorem land_eq_right_iff {x y : Nat} :
    x &&& y = y ↔ ∀ i, y.testBit i = true → x.testBit i = true := by
  constructor
  · intro h i hy
    have hh := congrArg (fun n => n.testBit i) h
    simp only [Nat.testBit_and, hy, Bool.and_true] at hh
    exact hh
  · intro h
    apply Nat.eq_of_testBit_eq
    intro i
    rw [Nat.testBit_and]
    cases hy : y.testBit i
    · simp
    · simp [h i hy]

theorem land_eq_left_iff {x y : Nat} :
    x &&& y = x ↔ ∀ i, x.testBit i = true → y.testBit i = true := by
  rw [Nat.and_comm]
  exact land_eq_right_iff

theorem allMask_testBit (catalog : List Attribute) (i : Nat) :
    (allMask catalog).testBit i = true ↔ ∃ a ∈ catalog, a.bytes.testBit i = true := by
  induction catalog with
  | nil => simp [allMask]
  | cons a t ih =>
      simp only [allMask, List.foldr_cons, Nat.testBit_or, Bool.or_eq_true,
        List.mem_cons]
      rw [show List.foldr (fun a m => a.bytes ||| m) 0 t = allMask t from rfl]
      constructor
      · rintro (h | h)
        · exact ⟨a, Or.inl rfl, h⟩
        · obtain ⟨b, hb, hbi⟩ := ih.mp h
          exact ⟨b, Or.inr hb, hbi⟩
      · rintro ⟨b, hb | hb, hbi⟩
        · subst hb; exact Or.inl hbi
        · exact Or.inr (ih.mpr ⟨b, hb, hbi⟩)

theorem withinCatalog_iff {catalog : List Attribute} {s : Attributes} :
    withinCatalog catalog s ↔
      ∀ i, s.bits.testBit i = true → (allMask catalog).testBit i = true := by
  unfold withinCatalog
  exact land_eq_left_iff

theorem foldl_set_testBit (l : List Attribute) (s : Attributes) (i : Nat) :
    (l.foldl (fun s a => s.set a) s).bits.testBit i =
      (s.bits.testBit i || l.any fun a => a.bytes.testBit i) := by
  induction l generalizing s with
  | nil => simp
  | cons a t ih =>
      simp only [List.foldl_cons, List.any_cons]
      rw [ih]
      simp [Attributes.set, Nat.testBit_or, Bool.or_assoc]

theorem fromSlice_testBit (l : List Attribute) (i : Nat) :
    (Attributes.fromSlice l).bits.testBit i = (l.any fun a => a.bytes.testBit i) := by
  rw [Attributes.fromSlice, foldl_set_testBit]
  simp [Attributes.none]

theorem testBit_lt_32 {x i : Nat} (hx : x < 2 ^ 32) (h : x.testBit i = true) :
    i < 32 := by
  by_contra hi
  rw [testBit_high hx (Nat.le_of_not_lt hi)] at h
  exact Bool.false_ne_true h

theorem has_eq_true_iff {s : Attributes} {a : Attribute} :
    s.has a = true ↔ s.bits &&& a.bytes ≠ 0 := by
  simp [Attributes.has]

theorem has_eq_false_iff {s : Attributes} {a : Attribute} :
    s.has a = false ↔ s.bits &&& a.bytes = 0 := by
  simp [Attributes.has]

/-! Claim theorems. -/

/-- C3: the operator overloads agree with the named set-algebra
operations: bitwise AND is `intersection`, OR is `union`, XOR is
`symmetric_difference`, both between two sets and between a set and a
single capability (the capability being promoted to a singleton set). -/
theorem operators_match_set_algebra (a b : Attributes) (c : Attribute) :
    a.bitand b = a.intersection b ∧
    a.bitor b = a.union b ∧
    a.bitxor b = a.symmetric_difference b ∧
    a.bitandAttr c = a.intersection (Attributes.fromAttr c) ∧
    a.bitorAttr c = a.union (Attributes.fromAttr c) ∧
    a.bitxorAttr c = a.symmetric_difference (Attributes.fromAttr c) :=
  ⟨rfl, rfl, rfl, rfl, rfl, rfl⟩

/-- C9: `toggle` is self-inverse: toggling the same capability twice
yields the original set, for any starting set and capability. -/
theorem toggle_self_inverse (s : Attributes) (a : Attribute) :
    (s.toggle a).toggle a = s := by
  apply Attributes.ext_bits
  show s.bits ^^^ a.bytes ^^^ a.bytes = s.bits
  rw [Nat.xor_assoc, Nat.xor_self, Nat.xor_zero]

/-- C10: the mutating operations coincide with their pure counterparts:
`set` is `with`, `unset` is `without`, `toggle` is XOR with the
singleton of the capability (the symmetric difference with it), and
`extend` is `union`. -/
theorem mutating_match_pure (s o : Attributes) (a : Attribute) :
    s.set a = s.withAttr a ∧
    s.unset a = s.without a ∧
    s.toggle a = s.bitxorAttr a ∧
    s.bitxorAttr a = s.symmetric_difference (Attributes.fromAttr a) ∧
    s.extend o = s.union o :=
  ⟨rfl, rfl, rfl, rfl, rfl⟩

/-- C5: assuming the catalog assigns unique nonzero power-of-two
bitmasks, the singleton conversion contains exactly that capability:
`from(a).has(a)` is true and `from(a).has(b)` is false for every
capability `b` with a bitmask distinct from that of `a`. -/
theorem fromAttr_exactly_one (a b : Attribute) (i j : Nat)
    (ha : a.bytes = 2 ^ i) (hb : b.bytes = 2 ^ j) (hne : a ≠ b) :
    (Attributes.fromAttr a).has a = true ∧ (Attributes.fromAttr a).has b = false := by
  have hbytes : a.bytes ≠ b.bytes := fun h => hne (Attribute.ext_bytes h)
  constructor
  · rw [has_eq_true_iff]
    show a.bytes &&& a.bytes ≠ 0
    rw [Nat.and_self, ha]
    positivity
  · rw [has_eq_false_iff]
    show a.bytes &&& b.bytes = 0
    have hij : i ≠ j := fun h => hbytes (by rw [ha, hb, h])
    rw [ha, hb, Nat.and_two_pow, Nat.testBit_two_pow]
    simp [hij]

/-- C5 witness at the masks 1 and 2. -/
theorem fromAttr_exactly_one_witness :
    (Attributes.fromAttr ⟨1, by norm_num⟩).has ⟨1, by norm_num⟩ = true ∧
    (Attributes.fromAttr ⟨1, by norm_num⟩).has ⟨2, by norm_num⟩ = false :=
  fromAttr_exactly_one ⟨1, by norm_num⟩ ⟨2, by norm_num⟩ 0 1 rfl rfl (by decide)

/-- C7: `contains` is the subset test: it holds iff every capability
held by the other set is held by this one; it is reflexive; every set
contains the empty set; and it is not symmetric in general. -/
theorem contains_is_subset (a b : Attributes) :
    (a.contains b = true ↔ ∀ c : Attribute, b.has c = true → a.has c = true) ∧
    a.contains a = true ∧
    a.contains Attributes.none = true ∧
    ∃ x y : Attributes, x.contains y = true ∧ y.contains x = false := by
  refine ⟨?_, ?_, ?_, ⟨⟨3, by norm_num⟩, ⟨1, by norm_num⟩, by decide, by decide⟩⟩
  · have hcb : a.contains b = true ↔ a.bits &&& b.bits = b.bits := by
      simp [Attributes.contains]
    rw [hcb, land_eq_right_iff]
    constructor
    · intro h c hc
      rw [has_eq_true_iff] at hc ⊢
      obtain ⟨i, hbi, hci⟩ := land_ne_zero_iff.mp hc
      exact land_ne_zero_iff.mpr ⟨i, h i hbi, hci⟩
    · intro h i hbi
      have hi32 : i < 32 := testBit_lt_32 b.bits_lt hbi
      have hlt : 2 ^ i < 2 ^ 32 := Nat.pow_lt_pow_right (by norm_num) hi32
      have hbc : b.has ⟨2 ^ i, hlt⟩ = true := by
        rw [has_eq_true_iff]
        show b.bits &&& 2 ^ i ≠ 0
        have h2 : (2 : Nat) ^ i ≠ 0 := by positivity
        rw [Nat.and_two_pow, hbi]
        simp [h2]
      have hac := h ⟨2 ^ i, hlt⟩ hbc
      rw [has_eq_true_iff] at hac
      rw [show (⟨2 ^ i, hlt⟩ : Attribute).bytes = 2 ^ i from rfl] at hac
      rw [Nat.and_two_pow] at hac
      rcases hai : a.bits.testBit i with _ | _
      · rw [hai] at hac; simp at hac
      · rfl
  · simp [Attributes.contains, Nat.and_self]
  · simp [Attributes.contains, Attributes.none]

/-- C8: `intersects` is symmetric, false against the empty set, and
true iff some bit is set in both operands. -/
theorem intersects_spec (a b : Attributes) :
    a.intersects b = b.intersects a ∧
    ((a = Attributes.none ∨ b = Attributes.none) → a.intersects b = false) ∧
    (a.intersects b = true ↔ ∃ i, a.bits.testBit i = true ∧ b.bits.testBit i = true) := by
  refine ⟨?_, ?_, ?_⟩
  · show (a.bits &&& b.bits != 0) = (b.bits &&& a.bits != 0)
    rw [Nat.and_comm]
  · rintro (rfl | rfl) <;> simp [Attributes.intersects, Attributes.none]
  · have : a.intersects b = true ↔ a.bits &&& b.bits ≠ 0 := by
      simp [Attributes.intersects]
    rw [this, land_ne_zero_iff]

/-- C4: symmetric difference is the union of the two one-sided
differences, and coincides with the XOR operator. -/
theorem symdiff_as_differences (a b : Attributes) :
    a.symmetric_difference b = (a.difference b).union (b.difference a) ∧
    a.symmetric_difference b = a.bitxor b := by
  refine ⟨?_, rfl⟩
  apply Attributes.ext_bits
  show a.bits ^^^ b.bits = a.bits &&& u32not b.bits ||| b.bits &&& u32not a.bits
  apply Nat.eq_of_testBit_eq
  intro i
  rw [Nat.testBit_xor, Nat.testBit_or, Nat.testBit_and, Nat.testBit_and,
    u32not_testBit, u32not_testBit]
  by_cases hi : i < 32
  · rw [decide_eq_true hi]
    cases a.bits.testBit i <;> cases b.bits.testBit i <;> rfl
  · rw [testBit_high a.bits_lt (Nat.le_of_not_lt hi),
      testBit_high b.bits_lt (Nat.le_of_not_lt hi)]
    rfl

/-! Sample capabilities and sets used by the concrete witnesses. -/

def attrA : Attribute := ⟨1, by norm_num⟩

def attrB : Attribute := ⟨2, by norm_num⟩

def attrC : Attribute := ⟨4, by norm_num⟩

def catalogS : List Attribute := [attrA, attrB, attrC]

def sampleS : Attributes := ⟨5, by norm_num⟩

def sampleO : Attributes := ⟨3, by norm_num⟩

def sampleL : List Attribute := [attrA, attrC, attrA]

theorem foldr_union_testBit (l : List Attribute) (i : Nat) :
    ((l.map Attributes.fromAttr).foldr Attributes.union Attributes.none).bits.testBit i =
      (l.any fun a => a.bytes.testBit i) := by
  induction l with
  | nil => simp [Attributes.none]
  | cons a t ih =>
      simp only [List.map_cons, List.foldr_cons, List.any_cons]
      rw [← ih]
      simp [Attributes.union, Attributes.fromAttr, Nat.testBit_or]

/-- C6: conversion from a slice equals the union of the singleton sets
of its elements; the result is invariant under permutation of the slice
and under removal of duplicate elements. -/
theorem fromSlice_union_perm_dedup (l l' : List Attribute) (hperm : l.Perm l') :
    Attributes.fromSlice l =
      (l.map Attributes.fromAttr).foldr Attributes.union Attributes.none ∧
    Attributes.fromSlice l = Attributes.fromSlice l' ∧
    Attributes.fromSlice l.dedup = Attributes.fromSlice l := by
  refine ⟨?_, ?_, ?_⟩
  · apply Attributes.ext_bits
    apply Nat.eq_of_testBit_eq
    intro i
    rw [fromSlice_testBit, foldr_union_testBit]
  · apply Attributes.ext_bits
    apply Nat.eq_of_testBit_eq
    intro i
    rw [fromSlice_testBit, fromSlice_testBit, Bool.eq_iff_iff]
    simp only [List.any_eq_true]
    constructor
    · rintro ⟨x, hx, hb⟩
      exact ⟨x, hperm.mem_iff.mp hx, hb⟩
    · rintro ⟨x, hx, hb⟩
      exact ⟨x, hperm.mem_iff.mpr hx, hb⟩
  · apply Attributes.ext_bits
    apply Nat.eq_of_testBit_eq
    intro i
    rw [fromSlice_testBit, fromSlice_testBit, Bool.eq_iff_iff]
    simp only [List.any_eq_true, List.mem_dedup]

/-- C6 witness at a concrete two-element slice and its swap. -/
theorem fromSlice_union_perm_dedup_witness :
    Attributes.fromSlice [attrA, attrB] =
      (([attrA, attrB]).map Attributes.fromAttr).foldr Attributes.union Attributes.none ∧
    Attributes.fromSlice [attrA, attrB] = Attributes.fromSlice [attrB, attrA] ∧
    Attributes.fromSlice ([attrA, attrB]).dedup = Attributes.fromSlice [attrA, attrB] :=
  fromSlice_union_perm_dedup [attrA, attrB] [attrB, attrA] (by decide)

/-- All set bits of the word `n` lie under some catalog bitmask. -/
def coveredBits (catalog : List Attribute) (n : Nat) : Prop :=
  ∀ i, n.testBit i = true → (allMask catalog).testBit i = true

theorem coveredBits_zero (c : List Attribute) : coveredBits c 0 := by
  intro i h
  simp at h

theorem coveredBits_bytes {c : List Attribute} {a : Attribute} (ha : a ∈ c) :
    coveredBits c a.bytes :=
  fun i hi => (allMask_testBit c i).mpr ⟨a, ha, hi⟩

theorem coveredBits_or {c : List Attribute} {x y : Nat}
    (hx : coveredBits c x) (hy : coveredBits c y) : coveredBits c (x ||| y) := by
  intro i hi
  rw [Nat.testBit_or, Bool.or_eq_true] at hi
  rcases hi with hi | hi
  · exact hx i hi
  · exact hy i hi

theorem coveredBits_and_left {c : List Attribute} {x : Nat}
    (hx : coveredBits c x) (y : Nat) : coveredBits c (x &&& y) := by
  intro i hi
  rw [Nat.testBit_and, Bool.and_eq_true_iff] at hi
  exact hx i hi.1

theorem coveredBits_xor {c : List Attribute} {x y : Nat}
    (hx : coveredBits c x) (hy : coveredBits c y) : coveredBits c (x ^^^ y) := by
  intro i hi
  rw [Nat.testBit_xor] at hi
  rcases h1 : x.testBit i with _ | _
  · rcases h2 : y.testBit i with _ | _
    · rw [h1, h2] at hi; simp at hi
    · exact hy i h2
  · exact hx i h1

theorem withinCatalog_iff_covered {catalog : List Attribute} {s : Attributes} :
    withinCatalog catalog s ↔ coveredBits catalog s.bits :=
  withinCatalog_iff

/-- C1: starting from inputs whose bits lie under the union of the
catalog bitmasks, every public construction, mutation and set-algebra
operation produces a value whose bits again lie under that union — no
"unknown" bit position is ever set. -/
theorem bits_stay_within_catalog (catalog : List Attribute) (s o : Attributes)
    (a : Attribute) (l : List Attribute)
    (hs : withinCatalog catalog s) (ho : withinCatalog catalog o)
    (ha : a ∈ catalog) (hl : ∀ x ∈ l, x ∈ catalog) :
    withinCatalog catalog Attributes.none ∧
    withinCatalog catalog (Attributes.fromAttr a) ∧
    withinCatalog catalog (Attributes.fromSlice l) ∧
    withinCatalog catalog (s.withAttr a) ∧
    withinCatalog catalog (s.without a) ∧
    withinCatalog catalog (s.set a) ∧
    withinCatalog catalog (s.unset a) ∧
    withinCatalog catalog (s.toggle a) ∧
    withinCatalog catalog (s.extend o) ∧
    withinCatalog catalog (s.intersection o) ∧
    withinCatalog catalog (s.union o) ∧
    withinCatalog catalog (s.difference o) ∧
    withinCatalog catalog (s.symmetric_difference o) ∧
    withinCatalog catalog (s.bitand o) ∧
    withinCatalog catalog (s.bitor o) ∧
    withinCatalog catalog (s.bitxor o) ∧
    withinCatalog catalog (s.bitandAttr a) ∧
    withinCatalog catalog (s.bitorAttr a) ∧
    withinCatalog catalog (s.bitxorAttr a) := by
  rw [withinCatalog_iff_covered] at hs ho
  have hb : coveredBits catalog a.bytes := coveredBits_bytes ha
  have hfs : coveredBits catalog (Attributes.fromSlice l).bits := by
    intro i hi
    rw [fromSlice_testBit] at hi
    rw [List.any_eq_true] at hi
    obtain ⟨x, hx, hxi⟩ := hi
    exact coveredBits_bytes (hl x hx) i hxi
  refine ⟨?_, ?_, ?_, ?_, ?_, ?_, ?_, ?_, ?_, ?_, ?_, ?_, ?_, ?_, ?_, ?_, ?_, ?_, ?_⟩
  all_goals rw [withinCatalog_iff_covered]
  · exact coveredBits_zero catalog
  · exact hb
  · exact hfs
  · exact coveredBits_or hs hb
  · exact coveredBits_and_left hs _
  · exact coveredBits_or hs hb
  · exact coveredBits_and_left hs _
  · exact coveredBits_xor hs hb
  · exact coveredBits_or hs ho
  · exact coveredBits_and_left hs _
  · exact coveredBits_or hs ho
  · exact coveredBits_and_left hs _
  · exact coveredBits_xor hs ho
  · exact coveredBits_and_left hs _
  · exact coveredBits_or hs ho
  · exact coveredBits_xor hs ho
  · exact coveredBits_and_left hs _
  · exact coveredBits_or hs hb
  · exact coveredBits_xor hs hb

/-- C1 witness at a concrete three-capability catalog. -/
theorem bits_stay_within_catalog_witness :
    withinCatalog catalogS Attributes.none ∧
    withinCatalog catalogS (Attributes.fromAttr attrB) ∧
    withinCatalog catalogS (Attributes.fromSlice sampleL) ∧
    withinCatalog catalogS (sampleS.withAttr attrB) ∧
    withinCatalog catalogS (sampleS.without attrB) ∧
    withinCatalog catalogS (sampleS.set attrB) ∧
    withinCatalog catalogS (sampleS.unset attrB) ∧
    withinCatalog catalogS (sampleS.toggle attrB) ∧
    withinCatalog catalogS (sampleS.extend sampleO) ∧
    withinCatalog catalogS (sampleS.intersection sampleO) ∧
    withinCatalog catalogS (sampleS.union sampleO) ∧
    withinCatalog catalogS (sampleS.difference sampleO) ∧
    withinCatalog catalogS (sampleS.symmetric_difference sampleO) ∧
    withinCatalog catalogS (sampleS.bitand sampleO) ∧
    withinCatalog catalogS (sampleS.bitor sampleO) ∧
    withinCatalog catalogS (sampleS.bitxor sampleO) ∧
    withinCatalog catalogS (sampleS.bitandAttr attrB) ∧
    withinCatalog catalogS (sampleS.bitorAttr attrB) ∧
    withinCatalog catalogS (sampleS.bitxorAttr attrB) :=
  bits_stay_within_catalog catalogS sampleS sampleO attrB sampleL
    (by decide) (by decide) (by decide) (by decide)

/-- C2: `iter` walks the catalog enumeration and keeps, in catalog
order, exactly the capabilities for which `has` is true; when the
catalog bitmasks are pairwise-distinct powers of two and the set's bits
all lie within catalog bitmasks, the number of elements produced equals
the number of set bits.  In this embedding `iter` is a pure function of
the current set, so re-invoking it on the same value yields the same
sequence by definition. -/
theorem iter_yields_has_filter (catalog : List Attribute) (s : Attributes)
    (hpowEx : ∀ a ∈ catalog, ∃ k, a.bytes = 2 ^ k)
    (huniq : (catalog.map Attribute.bytes).Nodup)
    (hcov : withinCatalog catalog s) :
    Attributes.iter catalog s = catalog.filter (fun a => s.has a) ∧
    (Attributes.iter catalog s).length = popCount32 s.bits := by
  refine ⟨rfl, ?_⟩
  have hpow : ∀ a ∈ catalog, a.bytes = 2 ^ Nat.log2 a.bytes := by
    intro a ha
    obtain ⟨k, hk⟩ := hpowEx a ha
    rw [hk, Nat.log2_two_pow]
  have hpred : ∀ a ∈ catalog, s.has a = s.bits.testBit (Nat.log2 a.bytes) := by
    intro a ha
    rcases hb : s.bits.testBit (Nat.log2 a.bytes) with _ | _
    · rw [has_eq_false_iff, hpow a ha, Nat.and_two_pow, hb]
      simp
    · rw [has_eq_true_iff, hpow a ha, Nat.and_two_pow, hb]
      have h2 : (2 : Nat) ^ Nat.log2 a.bytes ≠ 0 := by positivity
      simp [h2]
  have hfil : catalog.filter (fun a => s.has a) =
      catalog.filter (fun a => s.bits.testBit (Nat.log2 a.bytes)) :=
    List.filter_congr hpred
  have hmap : (catalog.map fun a => Nat.log2 a.bytes).filter (fun i => s.bits.testBit i) =
      (catalog.filter fun a => s.bits.testBit (Nat.log2 a.bytes)).map
        (fun a => Nat.log2 a.bytes) :=
    List.filter_map _ _
  have hnodup_cat : catalog.Pairwise (fun a b => a.bytes ≠ b.bytes) :=
    List.pairwise_map.mp huniq
  have h2 : catalog.Pairwise fun a b => Nat.log2 a.bytes ≠ Nat.log2 b.bytes :=
    List.Pairwise.imp_of_mem
      (fun {a b} ha hb hne h => hne (by rw [hpow a ha, hpow b hb, h])) hnodup_cat
  have hnodup_es : (catalog.map fun a => Nat.log2 a.bytes).Nodup :=
    List.pairwise_map.mpr h2
  have hlen1 : ((catalog.map fun a => Nat.log2 a.bytes).filter
        fun i => s.bits.testBit i).length
      = ((catalog.map fun a => Nat.log2 a.bytes).filter
        fun i => s.bits.testBit i).toFinset.card :=
    (List.toFinset_card_of_nodup (List.Nodup.filter _ hnodup_es)).symm
  have hlen2 : popCount32 s.bits
      = ((List.range 32).filter fun i => s.bits.testBit i).toFinset.card := by
    rw [popCount32]
    exact (List.toFinset_card_of_nodup (List.Nodup.filter _ (List.nodup_range 32))).symm
  have hsetEq : ((catalog.map fun a => Nat.log2 a.bytes).filter
        fun i => s.bits.testBit i).toFinset
      = ((List.range 32).filter fun i => s.bits.testBit i).toFinset := by
    ext i
    simp only [List.mem_toFinset, List.mem_filter, List.mem_range, List.mem_map]
    constructor
    · rintro ⟨⟨a, ha, rfl⟩, hbit⟩
      refine ⟨?_, hbit⟩
      have hlt := a.bytes_lt
      rw [hpow a ha] at hlt
      exact (Nat.pow_lt_pow_iff_right (by norm_num)).mp hlt
    · rintro ⟨hi32, hbit⟩
      refine ⟨?_, hbit⟩
      obtain ⟨a, ha, hai⟩ := (allMask_testBit catalog i).mp (withinCatalog_iff.mp hcov i hbit)
      refine ⟨a, ha, ?_⟩
      have hpa : (2 ^ Nat.log2 a.bytes).testBit i = true := by
        rw [← hpow a ha]
        exact hai
      rw [Nat.testBit_two_pow] at hpa
      exact of_decide_eq_true hpa
  calc (Attributes.iter catalog s).length
      = (catalog.filter fun a => s.bits.testBit (Nat.log2 a.bytes)).length := by
        show (catalog.filter fun a => s.has a).length = _
        rw [hfil]
    _ = ((catalog.map fun a => Nat.log2 a.bytes).filter
          fun i => s.bits.testBit i).length := by
        rw [hmap, List.length_map]
    _ = ((catalog.map fun a => Nat.log2 a.bytes).filter
          fun i => s.bits.testBit i).toFinset.card := hlen1
    _ = ((List.range 32).filter fun i => s.bits.testBit i).toFinset.card := by
        rw [hsetEq]
    _ = popCount32 s.bits := hlen2.symm

/-- C2 witness at the catalog with masks 1, 2, 4 and the set with bits 5. -/
theorem iter_yields_has_filter_witness :
    Attributes.iter catalogS sampleS = catalogS.filter (fun a => sampleS.has a) ∧
    (Attributes.iter catalogS sampleS).length = popCount32 sampleS.bits :=
  iter_yields_has_filter catalogS sampleS
    (fun a ha => by
      fin_cases ha
      · exact ⟨0, rfl⟩
      · exact ⟨1, rfl⟩
      · exact ⟨2, rfl⟩)
    (by decide) (by decide)
